import Mathlib

/-!
Verification development for the CSS JIT subsetting engine: the build-time CLI
(`src/public/style-jit-cli.js`) and the browser runtime (`style-jit-runtime.js`).
Stylesheet text is modelled as `List Char`; the JS scanning loops become
fuel-indexed structural recursions (one unit of fuel per loop iteration), so a
fuel of `length + 1` always suffices and every definition is executable.
-/

namespace StyleJit

/-! ### Character classes

`isSpace` models the JS regex class `\s` (also used by `String.prototype.trim`),
`isAlpha` models `[a-zA-Z]`, `isClassChar` models `[a-zA-Z0-9_-]`, and
`wordChar` models `\w` (used for the `\b` boundaries in the runtime's base
selector regex). -/

def isSpace (c : Char) : Bool :=
  c == ' ' || c == '\t' || c == '\n' || c == '\r' || c == '\x0b' || c == '\x0c' ||
  c == '\u00A0' || c == '\u1680' || (decide ('\u2000' ≤ c) && decide (c ≤ '\u200A')) ||
  c == '\u2028' || c == '\u2029' || c == '\u202F' || c == '\u205F' ||
  c == '\u3000' || c == '\uFEFF'

def isAlpha (c : Char) : Bool :=
  (decide ('a' ≤ c) && decide (c ≤ 'z')) || (decide ('A' ≤ c) && decide (c ≤ 'Z'))

def isClassChar (c : Char) : Bool :=
  isAlpha c || (decide ('0' ≤ c) && decide (c ≤ '9')) || c == '_' || c == '-'

def wordChar (c : Char) : Bool :=
  isAlpha c || (decide ('0' ≤ c) && decide (c ≤ '9')) || c == '_'

/-- Model of `String.prototype.trim` on the selector slices. -/
def trim (s : List Char) : List Char :=
  ((s.dropWhile isSpace).reverse.dropWhile isSpace).reverse

/-! ### Scanning primitives

These model the index arithmetic of the JS loops on the suffix of the input
starting at the current position `pos`:
* `takeThroughChar c` models `indexOf(c, pos)` followed by `slice(pos, end+1)`
  (consuming to end of input when `indexOf` returns `-1`);
* `takeThroughStarSlash` models `indexOf('*' + '/', pos)` the same way (the
  two-character comment closer);
* `breakAtChar c` models `indexOf(c, pos)` splitting off the text before the
  found character (second component `[]` means "not found");
* `extractBlockAux` models `extractBlock`: scan forward tracking brace depth
  (`depth++` on `{`, `depth--` on `}`), returning the consumed span through the
  matching closer; `none` as second component means the scan ran off the end
  of the input (unbalanced braces), exactly as `extractBlock` returning `len`. -/

def takeThroughChar (c : Char) : List Char → List Char × List Char
  | [] => ([], [])
  | x :: xs =>
    if x = c then ([x], xs)
    else
      let r := takeThroughChar c xs
      (x :: r.1, r.2)

def takeThroughStarSlash : List Char → List Char × List Char
  | [] => ([], [])
  | [x] => ([x], [])
  | x :: y :: xs =>
    if x = '*' ∧ y = '/' then ([x, y], xs)
    else
      let r := takeThroughStarSlash (y :: xs)
      (x :: r.1, r.2)

def breakAtChar (c : Char) : List Char → List Char × List Char
  | [] => ([], [])
  | x :: xs =>
    if x = c then ([], x :: xs)
    else
      let r := breakAtChar c xs
      (x :: r.1, r.2)

def extractBlockAux : Int → List Char → List Char × Option (List Char)
  | _, [] => ([], none)
  | d, c :: cs =>
    if c = '\x7b' then
      let r := extractBlockAux (d + 1) cs
      (c :: r.1, r.2)
    else if c = '\x7d' then
      if d = 1 then ([c], some cs)
      else
        let r := extractBlockAux (d - 1) cs
        (c :: r.1, r.2)
    else
      let r := extractBlockAux d cs
      (c :: r.1, r.2)

def extractBlock (s : List Char) : List Char × Option (List Char) :=
  extractBlockAux 0 s

/-! ### Basic facts about the scanning primitives -/

theorem takeThroughChar_append (c : Char) (s : List Char) :
    (takeThroughChar c s).1 ++ (takeThroughChar c s).2 = s := by
  induction s with
  | nil => simp [takeThroughChar]
  | cons x xs ih =>
    by_cases h : x = c <;> simp [takeThroughChar, h, ih]

theorem takeThroughChar_fst_ne (c : Char) (s : List Char) (h : s ≠ []) :
    (takeThroughChar c s).1 ≠ [] := by
  cases s with
  | nil => exact absurd rfl h
  | cons x xs => by_cases hx : x = c <;> simp [takeThroughChar, hx]

theorem takeThroughStarSlash_append (s : List Char) :
    (takeThroughStarSlash s).1 ++ (takeThroughStarSlash s).2 = s := by
  induction s using takeThroughStarSlash.induct with
  | case1 => simp [takeThroughStarSlash]
  | case2 x => simp [takeThroughStarSlash]
  | case3 x y xs h => simp [takeThroughStarSlash, h]
  | case4 x y xs h ih =>
    simp only [takeThroughStarSlash, if_neg h, List.cons_append, List.cons.injEq, true_and]
    exact ih

theorem breakAtChar_append (c : Char) (s : List Char) :
    (breakAtChar c s).1 ++ (breakAtChar c s).2 = s := by
  induction s with
  | nil => simp [breakAtChar]
  | cons x xs ih => by_cases h : x = c <;> simp [breakAtChar, h, ih]

theorem breakAtChar_not_found {c : Char} {s : List Char}
    (h : (breakAtChar c s).2 = []) : c ∉ s := by
  induction s with
  | nil => simp
  | cons x xs ih =>
    by_cases hx : x = c
    · simp [breakAtChar, hx] at h
    · simp only [breakAtChar, if_neg hx] at h
      simp only [List.mem_cons]
      rintro (rfl | hm)
      · exact hx rfl
      · exact ih h hm

theorem extractBlockAux_append (d : Int) (s : List Char) :
    (extractBlockAux d s).1 ++ ((extractBlockAux d s).2.getD []) = s := by
  induction s generalizing d with
  | nil => simp [extractBlockAux]
  | cons x xs ih =>
    by_cases h1 : x = '\x7b'
    · simp [extractBlockAux, h1, ih]
    · by_cases h2 : x = '\x7d'
      · by_cases h3 : d = 1 <;> simp [extractBlockAux, h1, h2, h3, ih]
      · simp [extractBlockAux, h1, h2, ih]

theorem extractBlockAux_fst_ne (d : Int) (s : List Char) (h : s ≠ []) :
    (extractBlockAux d s).1 ≠ [] := by
  cases s with
  | nil => exact absurd rfl h
  | cons x xs =>
    by_cases h1 : x = '\x7b'
    · simp [extractBlockAux, h1]
    · by_cases h2 : x = '\x7d'
      · by_cases h3 : d = 1 <;> simp [extractBlockAux, h1, h2, h3]
      · simp [extractBlockAux, h1, h2]

theorem extractBlock_append (s : List Char) :
    (extractBlock s).1 ++ ((extractBlock s).2.getD []) = s :=
  extractBlockAux_append 0 s

theorem extractBlock_fst_ne (s : List Char) (h : s ≠ []) :
    (extractBlock s).1 ≠ [] :=
  extractBlockAux_fst_ne 0 s h

theorem length_lt_of_append {a b s : List Char} (hab : a ++ b = s) (ha : a ≠ []) :
    b.length < s.length := by
  subst hab
  have : 0 < a.length := List.length_pos.mpr ha
  simp only [List.length_append]
  omega

theorem length_le_of_append {a b s : List Char} (hab : a ++ b = s) :
    b.length ≤ s.length := by
  subst hab
  simp only [List.length_append]
  omega

theorem takeThroughChar_snd_lt (c : Char) (s : List Char) (h : s ≠ []) :
    (takeThroughChar c s).2.length < s.length :=
  length_lt_of_append (takeThroughChar_append c s) (takeThroughChar_fst_ne c s h)

theorem takeThroughStarSlash_snd_le (s : List Char) :
    (takeThroughStarSlash s).2.length ≤ s.length :=
  length_le_of_append (takeThroughStarSlash_append s)

theorem breakAtChar_snd_le (c : Char) (s : List Char) :
    (breakAtChar c s).2.length ≤ s.length :=
  length_le_of_append (breakAtChar_append c s)

theorem extractBlock_rest_lt (s : List Char) (h : s ≠ []) :
    ((extractBlock s).2.getD []).length < s.length :=
  length_lt_of_append (extractBlock_append s) (extractBlock_fst_ne s h)

theorem dropWhile_length_le (p : Char → Bool) (s : List Char) :
    (s.dropWhile p).length ≤ s.length :=
  length_le_of_append (List.takeWhile_append_dropWhile p s)

theorem mem_takeWhile_space {s : List Char} {c : Char}
    (h : c ∈ s.takeWhile isSpace) : isSpace c = true := by
  induction s with
  | nil => simp at h
  | cons x xs ih =>
    by_cases hx : isSpace x
    · rw [List.takeWhile_cons_of_pos hx] at h
      rcases List.mem_cons.mp h with rfl | h2
      · exact hx
      · exact ih h2
    · rw [List.takeWhile_cons_of_neg hx] at h
      simp at h

theorem dropWhile_head_false {p : Char → Bool} {s t : List Char} {c : Char}
    (h : s.dropWhile p = c :: t) : p c = false := by
  induction s with
  | nil => simp [List.dropWhile] at h
  | cons x xs ih =>
    by_cases hx : p x
    · rw [List.dropWhile_cons_of_pos hx] at h
      exact ih h
    · rw [List.dropWhile_cons_of_neg hx] at h
      cases h
      exact Bool.not_eq_true _ ▸ (by simpa using hx)

/-! ### CLI Stylesheet Segmenter (`build` segmentation loop, style-jit-cli.js) -/

inductive SegType where
  | comment
  | imp
  | atRule
  | rule
deriving DecidableEq

/-- One segment emitted by the CLI segmentation loop: `{ type, selector, raw }`.
Only `rule` segments carry a meaningful selector (the JS object simply omits
the field otherwise; we store `[]`). -/
structure Segment where
  kind : SegType
  selector : List Char
  raw : List Char
deriving DecidableEq

/-- Fuel-indexed model of the CLI segmentation `while (pos < len)` loop.
Each loop iteration consumes one unit of fuel; `none` means the fuel ran out.
The branches, in source order: skip whitespace; comment (`/\x2a`), consumed
through the matching `\x2a/` or end of input; `@import`, consumed through the
next `;` or end of input; any other `@`-rule, consumed through the matching
closing brace found by `extractBlock` (no segment is emitted and scanning
stops if no `{` follows); otherwise a rule, with the trimmed pre-brace text as
selector. -/
def segmentsF : Nat → List Char → Option (List Segment)
  | 0, _ => none
  | fuel + 1, s =>
    let s1 := s.dropWhile isSpace
    if s1 = [] then some []
    else if ['/', '*'] <+: s1 then
      let r := takeThroughStarSlash (s1.drop 2)
      (segmentsF fuel r.2).map (fun segs => ⟨SegType.comment, [], '/' :: '*' :: r.1⟩ :: segs)
    else if ['@', 'i', 'm', 'p', 'o', 'r', 't'] <+: s1 then
      let r := takeThroughChar ';' s1
      (segmentsF fuel r.2).map (fun segs => ⟨SegType.imp, [], r.1⟩ :: segs)
    else if s1.head? = some '@' then
      match breakAtChar '\x7b' s1 with
      | (_, []) => some []
      | (pre, rest) =>
        let b := extractBlock rest
        (segmentsF fuel (b.2.getD [])).map
          (fun segs => ⟨SegType.atRule, [], pre ++ b.1⟩ :: segs)
    else
      match breakAtChar '\x7b' s1 with
      | (_, []) => some []
      | (pre, rest) =>
        let b := extractBlock rest
        (segmentsF fuel (b.2.getD [])).map
          (fun segs => ⟨SegType.rule, trim pre, pre ++ b.1⟩ :: segs)

/-- Total wrapper: the loop makes strictly forward progress, so a fuel of
`length + 1` always suffices (proved below). -/
def segments (s : List Char) : List Segment :=
  (segmentsF (s.length + 1) s).getD []

/-! ### Selector Classifier -/

/-- Fuel-indexed model of the global scan of the regex
`\.([a-zA-Z][a-zA-Z0-9_-]\x2a)` (identical in `selectorUsesClass` in the CLI and
`parseCSS` in the runtime): at a `.` followed by a letter, the match greedily
extends over `[a-zA-Z0-9_-]` and scanning resumes after the match; otherwise
the scan position advances by one character. Tokens are returned with their
leading dot, exactly as `String.prototype.match` returns them. -/
def classTokensF : Nat → List Char → List (List Char)
  | 0, _ => []
  | _ + 1, [] => []
  | fuel + 1, x :: rest =>
    if x = '.' then
      match rest with
      | [] => []
      | c :: rest2 =>
        if isAlpha c then
          ('.' :: c :: rest2.takeWhile isClassChar) ::
            classTokensF fuel (rest2.dropWhile isClassChar)
        else classTokensF fuel (c :: rest2)
    else classTokensF fuel rest

def classTokens (s : List Char) : List (List Char) :=
  classTokensF (s.length + 1) s

/-- Class names extracted from a selector: matched tokens with the leading dot
stripped (the JS `cn.slice(1)`). -/
def classNames (s : List Char) : List (List Char) :=
  (classTokens s).map List.tail

/-- Model of the CLI `selectorUsesClass`: `null` result of `match` yields
`false`; otherwise keep if ANY matched class name is in the used set. -/
def selectorUsesClass (used : List (List Char)) (selector : List Char) : Bool :=
  let cns := classTokens selector
  if cns = [] then false
  else cns.any (fun cn => decide (cn.tail ∈ used))

/-- Pattern `/^pat$/`: exact match. -/
def eqTok (pat sel : List Char) : Bool := decide (sel = pat)

/-- Pattern `/^pat/` (no end anchor): prefix match. -/
def prefTok (pat sel : List Char) : Bool := decide (pat <+: sel)

/-- Model of the CLI `baseElementSelectors.some(re => re.test(selector))`.
Each regex in the source list is one disjunct, in source order; the three
patterns with `\s` classes and `/^h[1-6]$/` are expanded per their regex
semantics. -/
def isBaseElement (selector : List Char) : Bool :=
  eqTok ['*'] selector || eqTok ['h', 't', 'm', 'l'] selector ||
  eqTok ['b', 'o', 'd', 'y'] selector || eqTok ['d', 'i', 'v'] selector ||
  eqTok ['s', 'e', 'c', 't', 'i', 'o', 'n'] selector ||
  eqTok ['m', 'a', 'i', 'n'] selector ||
  eqTok ['p'] selector || eqTok ['h', 'r'] selector ||
  eqTok ['f', 'o', 'r', 'm'] selector ||
  prefTok ['i', 'n', 'p', 'u', 't'] selector ||
  eqTok ['s', 'e', 'l', 'e', 'c', 't'] selector ||
  eqTok ['t', 'e', 'x', 't', 'a', 'r', 'e', 'a'] selector ||
  eqTok ['l', 'a', 'b', 'e', 'l'] selector ||
  eqTok ['f', 'i', 'e', 'l', 'd', 's', 'e', 't'] selector ||
  eqTok ['o', 'p', 't', 'i', 'o', 'n'] selector ||
  eqTok ['t', 'a', 'b', 'l', 'e'] selector ||
  eqTok ['t', 'h', 'e', 'a', 'd'] selector ||
  eqTok ['t', 'b', 'o', 'd', 'y'] selector ||
  eqTok ['t', 'r'] selector || eqTok ['t', 'h'] selector ||
  eqTok ['t', 'd'] selector || eqTok ['a'] selector ||
  eqTok ['b', 'u', 't', 't', 'o', 'n'] selector ||
  -- /^a,\s\x2abutton$/
  (prefTok ['a', ','] selector &&
    decide ((selector.drop 2).dropWhile isSpace = ['b', 'u', 't', 't', 'o', 'n'])) ||
  eqTok ['i'] selector || eqTok ['i', 'm', 'g'] selector ||
  prefTok ['p', 'r', 'o', 'g', 'r', 'e', 's', 's'] selector ||
  prefTok [':', ':', '-', 'w', 'e', 'b', 'k', 'i', 't'] selector ||
  prefTok [':', ':'] selector ||
  prefTok [':', 'r', 'o', 'o', 't'] selector ||
  -- /^h[1-6]$/
  (match selector with
   | ['h', c] => decide ('1' ≤ c) && decide (c ≤ '6')
   | _ => false) ||
  eqTok ['u', 'l'] selector || eqTok ['o', 'l'] selector ||
  eqTok ['l', 'i'] selector ||
  eqTok ['s', 'p', 'a', 'n'] selector ||
  eqTok ['n', 'a', 'v'] selector ||
  -- /^p\s+i/
  (match selector with
   | 'p' :: c :: rest => isSpace c && (match (c :: rest).dropWhile isSpace with
     | 'i' :: _ => true
     | _ => false)
   | _ => false) ||
  prefTok ['i', '.', 'm', 'a', 't', 'e', 'r', 'i', 'a', 'l'] selector ||
  -- /^td\s+img/
  (prefTok ['t', 'd'] selector && (match selector.drop 2 with
    | c :: rest => isSpace c &&
        prefTok ['i', 'm', 'g'] ((c :: rest).dropWhile isSpace)
    | [] => false)) ||
  prefTok ['t', 'r', ':', 'n', 't', 'h'] selector ||
  prefTok ['#', 'p', 'a', 'g', 'i', 'n', 'a', 't', 'i', 'o', 'n'] selector ||
  prefTok ['i', 'n', 'p', 'u', 't', '[', 't', 'y', 'p', 'e'] selector ||
  prefTok ['t', 'e', 'x', 't', 'a', 'r', 'e', 'a', ':', 'f', 'o', 'c', 'u', 's'] selector

/-- Model of the CLI `shouldKeepSegment` (the `at-rule` branch returns `true`
on both of its paths in the source). -/
def shouldKeepSegment (used : List (List Char)) (seg : Segment) : Bool :=
  match seg.kind with
  | SegType.imp => true
  | SegType.comment => true
  | SegType.atRule => true
  | SegType.rule => isBaseElement seg.selector || selectorUsesClass used seg.selector

/-! ### CLI Media-Block Sub-Filter (`filterMediaBlock`) -/

/-- Fuel-indexed model of the inner `while (p < innerLen)` loop of
`filterMediaBlock`: skip whitespace, skip comments entirely, stop when no `{`
remains, otherwise cut out one inner rule by depth-tracked brace matching and
keep it iff its trimmed selector is a base element or uses an in-use class. -/
def cliMediaInnerF (used : List (List Char)) : Nat → List Char → List (List Char)
  | 0, _ => []
  | fuel + 1, s =>
    let s1 := s.dropWhile isSpace
    if s1 = [] then []
    else if ['/', '*'] <+: s1 then
      cliMediaInnerF used fuel (takeThroughStarSlash (s1.drop 2)).2
    else
      match breakAtChar '\x7b' s1 with
      | (_, []) => []
      | (pre, rest) =>
        let b := extractBlock rest
        let selector := trim pre
        let ruleRaw := pre ++ b.1
        let r := cliMediaInnerF used fuel (b.2.getD [])
        if isBaseElement selector || selectorUsesClass used selector then ruleRaw :: r
        else r

def cliMediaInner (used : List (List Char)) (s : List Char) : List (List Char) :=
  cliMediaInnerF used (s.length + 1) s

/-- Model of the CLI `filterMediaBlock`: split the raw block at its first `{`
(returned unchanged when there is none), take the interior as
`raw.slice(firstBrace + 1, -1)` (dropping the final character), re-filter the
inner rules, and reassemble the survivors under the original header, or report
`none` (JS `null`) when no inner rule survives. -/
def filterMediaBlock (used : List (List Char)) (raw : List Char) : Option (List Char) :=
  match breakAtChar '\x7b' raw with
  | (_, []) => some raw
  | (hd, rest) =>
    let header := hd ++ ['\x7b']
    let inner := rest.tail.dropLast
    let innerRules := cliMediaInner used inner
    if innerRules = [] then none
    else some (header ++ '\n' :: (List.intercalate ['\n'] innerRules ++ ['\n', '\x7d']))

/-! ### CLI build filter loop -/

structure BuildAcc where
  kept : List (List Char)
  keptCount : Nat
  skippedCount : Nat
deriving DecidableEq

/-- One iteration of the CLI `for (const seg of segments)` filter loop:
`@media` at-rules go through `filterMediaBlock` (counted skipped when it
returns `null`), everything else through `shouldKeepSegment`. -/
def buildStep (used : List (List Char)) (acc : BuildAcc) (seg : Segment) : BuildAcc :=
  if seg.kind = SegType.atRule ∧ ['@', 'm', 'e', 'd', 'i', 'a'] <+: seg.raw then
    match filterMediaBlock used seg.raw with
    | some f => ⟨acc.kept ++ [f], acc.keptCount + 1, acc.skippedCount⟩
    | none => ⟨acc.kept, acc.keptCount, acc.skippedCount + 1⟩
  else if shouldKeepSegment used seg then
    ⟨acc.kept ++ [seg.raw], acc.keptCount + 1, acc.skippedCount⟩
  else ⟨acc.kept, acc.keptCount, acc.skippedCount + 1⟩

def buildFilter (used : List (List Char)) (segs : List Segment) : BuildAcc :=
  segs.foldl (buildStep used) ⟨[], 0, 0⟩

/-- The CLI output text: kept rules joined by blank lines. -/
def buildOutput (used : List (List Char)) (segs : List Segment) : List Char :=
  List.intercalate ['\n', '\n'] (buildFilter used segs).kept

/-! ### Runtime CSS parser (`parseCSS`, style-jit-runtime.js)

The runtime duplicates the scanning core but classifies differently: it builds
a class-to-rule-list map plus an always-injected base text. -/

/-- Model of the runtime's anchored `baseSelectors` regex
`/^(\x2a|html|body|...|@charset)/`: an alternation of prefixes, four of them
(`p`, `a`, `button`, `i`) followed by a `\b` word boundary, and `h[1-6]`.
`.test` is true iff some alternative matches at the start. -/
def prefTokB (pat sel : List Char) : Bool :=
  decide (pat <+: sel) &&
    (match sel.drop pat.length with
     | [] => true
     | c :: _ => !wordChar c)

def rtBaseSel (sel : List Char) : Bool :=
  prefTok ['*'] sel || prefTok ['h', 't', 'm', 'l'] sel ||
  prefTok ['b', 'o', 'd', 'y'] sel || prefTok ['d', 'i', 'v'] sel ||
  prefTok ['s', 'e', 'c', 't', 'i', 'o', 'n'] sel ||
  prefTok ['m', 'a', 'i', 'n'] sel ||
  prefTokB ['p'] sel || prefTok ['h', 'r'] sel ||
  prefTok ['f', 'o', 'r', 'm'] sel ||
  prefTok ['i', 'n', 'p', 'u', 't'] sel ||
  prefTok ['s', 'e', 'l', 'e', 'c', 't'] sel ||
  prefTok ['t', 'e', 'x', 't', 'a', 'r', 'e', 'a'] sel ||
  prefTok ['l', 'a', 'b', 'e', 'l'] sel ||
  prefTok ['f', 'i', 'e', 'l', 'd', 's', 'e', 't'] sel ||
  prefTok ['o', 'p', 't', 'i', 'o', 'n'] sel ||
  prefTok ['t', 'a', 'b', 'l', 'e'] sel ||
  prefTok ['t', 'h', 'e', 'a', 'd'] sel ||
  prefTok ['t', 'b', 'o', 'd', 'y'] sel ||
  prefTok ['t', 'r'] sel || prefTok ['t', 'h'] sel ||
  prefTok ['t', 'd'] sel ||
  prefTokB ['a'] sel || prefTokB ['b', 'u', 't', 't', 'o', 'n'] sel ||
  prefTokB ['i'] sel ||
  prefTok ['i', 'm', 'g'] sel ||
  prefTok ['p', 'r', 'o', 'g', 'r', 'e', 's', 's'] sel ||
  prefTok [':', 'r', 'o', 'o', 't'] sel ||
  (match sel with
   | 'h' :: c :: _ => decide ('1' ≤ c) && decide (c ≤ '6')
   | _ => false) ||
  prefTok ['u', 'l'] sel || prefTok ['o', 'l'] sel ||
  prefTok ['l', 'i'] sel || prefTok ['n', 'a', 'v'] sel ||
  prefTok ['s', 'p', 'a', 'n'] sel ||
  prefTok ['h', 'e', 'a', 'd', 'e', 'r'] sel ||
  prefTok ['f', 'o', 'o', 't', 'e', 'r'] sel ||
  prefTok ['@', 'i', 'm', 'p', 'o', 'r', 't'] sel ||
  prefTok ['@', 'c', 'h', 'a', 'r', 's', 'e', 't'] sel

/-- Association-list model of the JS object `map`; `mapPush m k v` models
`if (!map[k]) map[k] = []; map[k].push(v)` (existing keys keep their
insertion position, new keys are appended). -/
def mapPush : List (List Char × List (List Char)) → List Char → List Char →
    List (List Char × List (List Char))
  | [], k, v => [(k, [v])]
  | (k2, vs) :: rest, k, v =>
    if k2 = k then (k2, vs ++ [v]) :: rest
    else (k2, vs) :: mapPush rest k v

/-- Model of the JS property read `map[k]` (`none` = `undefined`). -/
def mapLookup : List (List Char × List (List Char)) → List Char → Option (List (List Char))
  | [], _ => none
  | (k2, vs) :: rest, k => if k2 = k then some vs else mapLookup rest k

/-- Fuel-indexed model of the inner scan of an `@media` block in the runtime
`parseCSS`: returns (`mediaBaseRules`, the `(className, wrappedRule)` pushes
performed on the map, in scan order). A rule with no class tokens whose
selector passes `baseSelectors.test` joins the media base rules; a rule with
class tokens pushes `header + newline + rule + newline + closing brace` under
each of its class names; anything else is dropped. -/
def rtMediaScanF (header : List Char) :
    Nat → List Char → List (List Char) × List (List Char × List Char)
  | 0, _ => ([], [])
  | fuel + 1, s =>
    let s1 := s.dropWhile isSpace
    if s1 = [] then ([], [])
    else if ['/', '*'] <+: s1 then
      rtMediaScanF header fuel (takeThroughStarSlash (s1.drop 2)).2
    else
      match breakAtChar '\x7b' s1 with
      | (_, []) => ([], [])
      | (pre, rest) =>
        let b := extractBlock rest
        let ruleRaw := pre ++ b.1
        let selector := trim pre
        let cms := classTokens selector
        let r := rtMediaScanF header fuel (b.2.getD [])
        if cms = [] ∧ rtBaseSel selector = true then (ruleRaw :: r.1, r.2)
        else if cms ≠ [] then
          (r.1, cms.map (fun cn => (cn.tail, header ++ '\n' :: (ruleRaw ++ ['\n', '\x7d']))) ++ r.2)
        else (r.1, r.2)

def rtMediaScan (header s : List Char) : List (List Char) × List (List Char × List Char) :=
  rtMediaScanF header (s.length + 1) s

/-- Accumulated result of the runtime `parseCSS` loop: the class-to-rules map
and the list of base chunks (joined with newlines at the end). -/
structure ParseAcc where
  map : List (List Char × List (List Char))
  base : List (List Char)
deriving DecidableEq

/-- Fuel-indexed model of the runtime `parseCSS` `while (pos < len)` loop.
Branches in source order: skip whitespace; skip comments; `@import`/`@charset`
go whole into base; `@keyframe` blocks go whole into base; `@media` blocks are
scanned internally by `rtMediaScan`; any other text up to a `{` is a regular
rule, going to base when it has no class tokens (and `keepBase` is set), else
mapped under each of its class names. When a selector or at-rule has no
following `{`, scanning consumes to end of input and stops. -/
def parseCSSF (kb : Bool) : Nat → List Char → ParseAcc → Option ParseAcc
  | 0, _, _ => none
  | fuel + 1, s, acc =>
    let s1 := s.dropWhile isSpace
    if s1 = [] then some acc
    else if ['/', '*'] <+: s1 then
      parseCSSF kb fuel (takeThroughStarSlash (s1.drop 2)).2 acc
    else if ['@', 'i', 'm', 'p', 'o', 'r', 't'] <+: s1 ∨
        ['@', 'c', 'h', 'a', 'r', 's', 'e', 't'] <+: s1 then
      let r := takeThroughChar ';' s1
      parseCSSF kb fuel r.2 ⟨acc.map, acc.base ++ [r.1]⟩
    else if ['@', 'k', 'e', 'y', 'f', 'r', 'a', 'm', 'e'] <+: s1 then
      match breakAtChar '\x7b' s1 with
      | (_, []) => some acc
      | (pre, rest) =>
        let b := extractBlock rest
        parseCSSF kb fuel (b.2.getD []) ⟨acc.map, acc.base ++ [pre ++ b.1]⟩
    else if ['@', 'm', 'e', 'd', 'i', 'a'] <+: s1 then
      match breakAtChar '\x7b' s1 with
      | (_, []) => some acc
      | (pre, rest) =>
        let b := extractBlock rest
        let header := pre ++ ['\x7b']
        let inner :=
          match b.2 with
          | some _ => b.1.tail.dropLast
          | none => b.1.tail
        let scan := rtMediaScan header inner
        let newMap := scan.2.foldl (fun m p => mapPush m p.1 p.2) acc.map
        let newBase :=
          if scan.1 = [] then acc.base
          else acc.base ++ [header ++ '\n' :: (List.intercalate ['\n'] scan.1 ++ ['\n', '\x7d'])]
        parseCSSF kb fuel (b.2.getD []) ⟨newMap, newBase⟩
    else
      match breakAtChar '\x7b' s1 with
      | (_, []) => some acc
      | (pre, rest) =>
        let b := extractBlock rest
        let selector := trim pre
        let raw := pre ++ b.1
        let cms := classTokens selector
        let acc2 :=
          if cms = [] then (if kb then ⟨acc.map, acc.base ++ [raw]⟩ else acc)
          else ⟨cms.foldl (fun m cn => mapPush m cn.tail raw) acc.map, acc.base⟩
        parseCSSF kb fuel (b.2.getD []) acc2

def parseCSSrt (kb : Bool) (s : List Char) : ParseAcc :=
  (parseCSSF kb (s.length + 1) s ⟨[], []⟩).getD ⟨[], []⟩

/-- Full model of the runtime `parseCSS` return value
`{ map, base: base.join(newline) }`. -/
def parseCSS (kb : Bool) (s : List Char) :
    List (List Char × List (List Char)) × List Char :=
  let a := parseCSSrt kb s
  (a.map, List.intercalate ['\n'] a.base)

/-! ### Runtime mutable state and the injection pipeline -/

/-- The runtime module state.  `cssRules` is `null` before `init` finishes
parsing; `styleTag` is `none` until `getStyleTag` first creates the element,
`some t` once it exists with accumulated text `t`.  `outstanding` counts the
rendering-frame callbacks currently registered with the host environment
(`requestAnimationFrame` registers one, the frame firing consumes one);
`watching` records whether the mutation observer was started. -/
structure RState where
  cssRules : Option (List (List Char × List (List Char)))
  baseRules : List Char
  injected : List (List Char)
  styleTag : Option (List Char)
  pending : List (List Char)
  flushTimer : Bool
  outstanding : Nat
  watching : Bool
deriving DecidableEq

/-- JS `Set.add`: insertion-ordered, duplicate-free. -/
def insertSet (l : List (List Char)) (x : List Char) : List (List Char) :=
  if x ∈ l then l else l ++ [x]

/-- One `classes.forEach` iteration of `injectClasses`, threading
(`injectedClasses`, `newRules`): an already-injected class is skipped entirely;
otherwise it is added to the injected set and its mapped rules (if any) are
appended to `newRules`. -/
def injectStep (m : List (List Char × List (List Char)))
    (acc : List (List Char) × List (List Char)) (cls : List Char) :
    List (List Char) × List (List Char) :=
  if cls ∈ acc.1 then acc
  else (acc.1 ++ [cls], acc.2 ++ ((mapLookup m cls).getD []))

/-- Model of the runtime `injectClasses`: a no-op while `cssRules` is `null`;
otherwise `getStyleTag()` materializes the style element, the classes are
folded through `injectStep`, and the joined new rules (if any) are appended to
the element's text. -/
def injectClasses (classes : List (List Char)) (s : RState) : RState :=
  match s.cssRules with
  | none => s
  | some m =>
    let tag0 := s.styleTag.getD []
    let r := classes.foldl (injectStep m) (s.injected, [])
    let tag1 := if r.2 = [] then tag0 else tag0 ++ '\n' :: List.intercalate ['\n'] r.2
    { s with injected := r.1, styleTag := some tag1 }

/-- Model of the runtime `flushPending`: clear the timer handle, then drain the
pending set through `injectClasses` when it is non-empty. -/
def flushPending (s : RState) : RState :=
  let s0 := { s with flushTimer := false }
  if s0.pending = [] then s0
  else { injectClasses s0.pending s0 with pending := [] }

/-- Model of the runtime `scheduleInject`: add all classes to the pending set,
then register exactly one rendering-frame callback if none is registered. -/
def scheduleInject (classes : List (List Char)) (s : RState) : RState :=
  let s0 := { s with pending := classes.foldl insertSet s.pending }
  if s0.flushTimer then s0
  else { s0 with flushTimer := true, outstanding := s0.outstanding + 1 }

/-- Model of the public `getInjected` (`[...injectedClasses]`). -/
def getInjected (s : RState) : List (List Char) :=
  s.injected

/-- Events that drive the runtime after initialization: the two public entry
points `inject` and `rescan` (both call `injectClasses` with the supplied or
scanned class list), the mutation observer calling `scheduleInject`, and a
registered rendering-frame callback firing (which consumes the registration
and runs `flushPending`). -/
inductive Step : RState → RState → Prop
  | inject (cs : List (List Char)) (s : RState) : Step s (injectClasses cs s)
  | rescan (cs : List (List Char)) (s : RState) : Step s (injectClasses cs s)
  | schedule (cs : List (List Char)) (s : RState) : Step s (scheduleInject cs s)
  | flush (s : RState) : 1 ≤ s.outstanding →
      Step s (flushPending { s with outstanding := s.outstanding - 1 })

/-- States reachable from any quiescent state (no callback registered). -/
inductive Reachable : RState → Prop
  | base (s : RState) : s.flushTimer = false → s.outstanding = 0 → Reachable s
  | step {s t : RState} : Reachable s → Step s t → Reachable t

/-! ### Runtime initialization (`init`) -/

/-- The recognized configuration options (the two that influence the modelled
state: `watch` and `keepBase`; `cssPath`, `inject` and `debug` only affect
what is fetched and what is logged). -/
structure Config where
  watch : Bool
  keepBase : Bool
deriving DecidableEq

def initialState : RState :=
  ⟨none, [], [], none, [], false, 0, false⟩

/-- Observable outcome of `init`: the resulting module state, whether the
`catch` block logged an error, and how many fetches were issued. -/
structure InitResult where
  state : RState
  errorLogged : Bool
  fetchCalls : Nat
deriving DecidableEq

/-- Model of the runtime `init`.  `fetched` is the outcome of the single
`fetch(config.cssPath)`: `none` when the fetch rejected or the response was
not ok (the `!res.ok` throw is caught by the same `catch`), `some css`
otherwise.  On failure the `catch` logs and returns: nothing is parsed, no
style element is created, no observer starts.  On success the stylesheet is
parsed, the base text is written into the style element, the classes present
in the DOM (`domClasses`) are injected, and the observer starts if
`config.watch`. -/
def init (fetched : Option (List Char)) (domClasses : List (List Char))
    (cfg : Config) : InitResult :=
  match fetched with
  | none => { state := initialState, errorLogged := true, fetchCalls := 1 }
  | some css =>
    let parsed := parseCSS cfg.keepBase css
    let s0 := { initialState with
      cssRules := some parsed.1
      baseRules := parsed.2
      styleTag := some parsed.2 }
    let s1 := injectClasses domClasses s0
    let s2 := if cfg.watch then { s1 with watching := true } else s1
    { state := s2, errorLogged := false, fetchCalls := 1 }

/-! ### Termination: a fuel of `length + 1` always suffices

Every iteration of each scanning loop strictly advances the position, so the
number of iterations is bounded by the input length (plus the final check). -/

theorem isPrefixOf_two_length {a b : Char} {s : List Char} (h : [a, b] <+: s) :
    2 ≤ s.length := by
  rcases h with ⟨t, rfl⟩
  simp

theorem comment_rest_lt {s1 : List Char} (h : ['/', '*'] <+: s1) :
    (takeThroughStarSlash (s1.drop 2)).2.length < s1.length := by
  have h2 : 2 ≤ s1.length := isPrefixOf_two_length h
  have hle : (takeThroughStarSlash (s1.drop 2)).2.length ≤ (s1.drop 2).length :=
    takeThroughStarSlash_snd_le _
  have : (s1.drop 2).length = s1.length - 2 := by simp
  omega

theorem segmentsF_isSome (fuel : Nat) :
    ∀ s : List Char, s.length < fuel → (segmentsF fuel s).isSome := by
  induction fuel with
  | zero => intro s h; omega
  | succ fuel ih =>
    intro s hs
    have hs1le : (s.dropWhile isSpace).length ≤ s.length := dropWhile_length_le _ _
    by_cases h0 : s.dropWhile isSpace = []
    · simp [segmentsF, h0]
    · by_cases h1 : ['/', '*'] <+: s.dropWhile isSpace
      · have hlt := comment_rest_lt h1
        obtain ⟨r, hr⟩ := Option.isSome_iff_exists.mp
          (ih (takeThroughStarSlash ((s.dropWhile isSpace).drop 2)).2 (by omega))
        simp [segmentsF, h0, h1, hr]
      · by_cases h2 : ['@', 'i', 'm', 'p', 'o', 'r', 't'] <+: s.dropWhile isSpace
        · have hlt := takeThroughChar_snd_lt ';' _ h0
          obtain ⟨r, hr⟩ := Option.isSome_iff_exists.mp
            (ih (takeThroughChar ';' (s.dropWhile isSpace)).2 (by omega))
          simp [segmentsF, h0, h1, h2, hr]
        · rcases hbr : breakAtChar '\x7b' (s.dropWhile isSpace) with ⟨pre, rest⟩
          cases rest with
          | nil =>
            by_cases h3 : (s.dropWhile isSpace).head? = some '@' <;>
              simp [segmentsF, h0, h1, h2, h3, hbr]
          | cons rc rrest =>
            have hrest : (rc :: rrest).length ≤ (s.dropWhile isSpace).length := by
              have := breakAtChar_append '\x7b' (s.dropWhile isSpace)
              rw [hbr] at this
              exact length_le_of_append this
            have hlt : ((extractBlock (rc :: rrest)).2.getD []).length < (rc :: rrest).length :=
              extractBlock_rest_lt _ (by simp)
            obtain ⟨r, hr⟩ := Option.isSome_iff_exists.mp
              (ih ((extractBlock (rc :: rrest)).2.getD []) (by omega))
            by_cases h3 : (s.dropWhile isSpace).head? = some '@' <;>
              simp [segmentsF, h0, h1, h2, h3, hbr, hr]

theorem parseCSSF_isSome (kb : Bool) (fuel : Nat) :
    ∀ (s : List Char) (acc : ParseAcc), s.length < fuel →
      (parseCSSF kb fuel s acc).isSome := by
  induction fuel with
  | zero => intro s acc h; omega
  | succ fuel ih =>
    intro s acc hs
    have hs1le : (s.dropWhile isSpace).length ≤ s.length := dropWhile_length_le _ _
    by_cases h0 : s.dropWhile isSpace = []
    · simp [parseCSSF, h0]
    · by_cases h1 : ['/', '*'] <+: s.dropWhile isSpace
      · have hlt := comment_rest_lt h1
        have := ih (takeThroughStarSlash ((s.dropWhile isSpace).drop 2)).2 acc (by omega)
        simpa [parseCSSF, h0, h1] using this
      · by_cases h2 : ['@', 'i', 'm', 'p', 'o', 'r', 't'] <+: s.dropWhile isSpace ∨
            ['@', 'c', 'h', 'a', 'r', 's', 'e', 't'] <+: s.dropWhile isSpace
        · have hlt := takeThroughChar_snd_lt ';' _ h0
          have := ih (takeThroughChar ';' (s.dropWhile isSpace)).2
            ⟨acc.map, acc.base ++ [(takeThroughChar ';' (s.dropWhile isSpace)).1]⟩ (by omega)
          simpa [parseCSSF, h0, h1, h2] using this
        · rcases hbr : breakAtChar '\x7b' (s.dropWhile isSpace) with ⟨pre, rest⟩
          cases rest with
          | nil =>
            by_cases h3 : ['@', 'k', 'e', 'y', 'f', 'r', 'a', 'm', 'e'] <+: s.dropWhile isSpace <;>
              by_cases h4 : ['@', 'm', 'e', 'd', 'i', 'a'] <+: s.dropWhile isSpace <;>
              simp [parseCSSF, h0, h1, h2, h3, h4, hbr]
          | cons rc rrest =>
            have hrest : (rc :: rrest).length ≤ (s.dropWhile isSpace).length := by
              have := breakAtChar_append '\x7b' (s.dropWhile isSpace)
              rw [hbr] at this
              exact length_le_of_append this
            have hlt : ((extractBlock (rc :: rrest)).2.getD []).length < (rc :: rrest).length :=
              extractBlock_rest_lt _ (by simp)
            by_cases h3 : ['@', 'k', 'e', 'y', 'f', 'r', 'a', 'm', 'e'] <+: s.dropWhile isSpace
            · have := ih ((extractBlock (rc :: rrest)).2.getD [])
                ⟨acc.map, acc.base ++ [pre ++ (extractBlock (rc :: rrest)).1]⟩ (by omega)
              simpa [parseCSSF, h0, h1, h2, h3, hbr] using this
            · by_cases h4 : ['@', 'm', 'e', 'd', 'i', 'a'] <+: s.dropWhile isSpace
              · simp only [parseCSSF, h0, h1, h2, h3, h4, hbr, if_false, if_true,
                  ite_true, ite_false, eq_self_iff_true, not_false_iff]
                exact ih _ _ (by omega)
              · have := ih ((extractBlock (rc :: rrest)).2.getD [])
                  (if classTokens (trim pre) = [] then
                    (if kb then ⟨acc.map, acc.base ++ [pre ++ (extractBlock (rc :: rrest)).1]⟩ else acc)
                   else ⟨(classTokens (trim pre)).foldl
                      (fun m cn => mapPush m cn.tail (pre ++ (extractBlock (rc :: rrest)).1)) acc.map,
                      acc.base⟩) (by omega)
                simpa [parseCSSF, h0, h1, h2, h3, h4, hbr] using this

/-! ### Coverage of the CLI segmenter -/

/-- `Interleaves s raws tail` holds when `s` decomposes, in order, as
whitespace-only gaps interleaved with exactly the spans `raws`, followed by a
final remainder `tail` (preceded by its own whitespace-only gap). With
`tail = []` this says the spans partition `s` up to whitespace. -/
inductive Interleaves : List Char → List (List Char) → List Char → Prop
  | last (ws tail : List Char) :
      (∀ c ∈ ws, isSpace c = true) → Interleaves (ws ++ tail) [] tail
  | seg (ws r rest : List Char) (rs : List (List Char)) (tail : List Char) :
      (∀ c ∈ ws, isSpace c = true) → Interleaves rest rs tail →
      Interleaves (ws ++ (r ++ rest)) (r :: rs) tail

theorem interleaves_nil {s tail : List Char} (h : Interleaves s [] tail) :
    ∃ ws, s = ws ++ tail ∧ ∀ c ∈ ws, isSpace c = true := by
  cases h with
  | last ws tail hws => exact ⟨ws, rfl, hws⟩

theorem segmentsF_covers (fuel : Nat) :
    ∀ (s : List Char) (segs : List Segment), s.length < fuel →
      segmentsF fuel s = some segs →
      ∃ tail, Interleaves s (segs.map Segment.raw) tail ∧ '\x7b' ∉ tail := by
  induction fuel with
  | zero => intro s segs h; omega
  | succ fuel ih =>
    intro s segs hs heq
    have hsplit : s.takeWhile isSpace ++ s.dropWhile isSpace = s :=
      List.takeWhile_append_dropWhile isSpace s
    have hws : ∀ c ∈ s.takeWhile isSpace, isSpace c = true :=
      fun c hc => mem_takeWhile_space hc
    have hs1le : (s.dropWhile isSpace).length ≤ s.length := dropWhile_length_le _ _
    by_cases h0 : s.dropWhile isSpace = []
    · simp only [segmentsF, h0, if_pos, Option.some.injEq] at heq
      subst heq
      refine ⟨[], ?_, by simp⟩
      have hs2 : s = s.takeWhile isSpace ++ [] := by
        conv_lhs => rw [← hsplit, h0]
      rw [List.map_nil, hs2]
      exact Interleaves.last _ [] hws
    · by_cases h1 : ['/', '*'] <+: s.dropWhile isSpace
      · have h1b := h1
        obtain ⟨t, ht⟩ := h1b
        have hdrop : (s.dropWhile isSpace).drop 2 = t := by rw [← ht]; simp
        rw [segmentsF] at heq
        rw [if_neg h0, if_pos h1, hdrop] at heq
        obtain ⟨segs2, hseg2, hcons⟩ := Option.map_eq_some'.mp heq
        have hlen2 : s.length < fuel + 1 := hs
        have hlens1 : (s.dropWhile isSpace).length = t.length + 2 := by
          rw [← ht]; simp
        have hr2le : (takeThroughStarSlash t).2.length ≤ t.length :=
          takeThroughStarSlash_snd_le t
        obtain ⟨tail, hil, hnb⟩ := ih (takeThroughStarSlash t).2 segs2 (by omega) hseg2
        refine ⟨tail, ?_, hnb⟩
        rw [← hcons]
        simp only [List.map_cons]
        have hraw : s.takeWhile isSpace ++
            (('/' :: '*' :: (takeThroughStarSlash t).1) ++ (takeThroughStarSlash t).2) = s := by
          conv_rhs => rw [← hsplit]
          rw [← ht]
          have h3 := takeThroughStarSlash_append t
          simp only [List.cons_append, List.append_assoc, List.nil_append]
          rw [h3]
        have key := Interleaves.seg (s.takeWhile isSpace)
          ('/' :: '*' :: (takeThroughStarSlash t).1) (takeThroughStarSlash t).2
          (segs2.map Segment.raw) tail hws hil
        rw [hraw] at key
        exact key
      · by_cases h2 : ['@', 'i', 'm', 'p', 'o', 'r', 't'] <+: s.dropWhile isSpace
        · rw [segmentsF] at heq
          rw [if_neg h0, if_neg h1, if_pos h2] at heq
          obtain ⟨segs2, hseg2, hcons⟩ := Option.map_eq_some'.mp heq
          have hlt := takeThroughChar_snd_lt ';' _ h0
          obtain ⟨tail, hil, hnb⟩ := ih (takeThroughChar ';' (s.dropWhile isSpace)).2 segs2
            (by omega) hseg2
          refine ⟨tail, ?_, hnb⟩
          rw [← hcons]
          simp only [List.map_cons]
          have hraw : s.takeWhile isSpace ++
              ((takeThroughChar ';' (s.dropWhile isSpace)).1 ++
                (takeThroughChar ';' (s.dropWhile isSpace)).2) = s := by
            conv_rhs => rw [← hsplit]
            rw [takeThroughChar_append]
          have key := Interleaves.seg (s.takeWhile isSpace)
            (takeThroughChar ';' (s.dropWhile isSpace)).1
            (takeThroughChar ';' (s.dropWhile isSpace)).2
            (segs2.map Segment.raw) tail hws hil
          rw [hraw] at key
          exact key
        · rcases hbr : breakAtChar '\x7b' (s.dropWhile isSpace) with ⟨pre, rest⟩
          have hs1app : pre ++ rest = s.dropWhile isSpace := by
            have := breakAtChar_append '\x7b' (s.dropWhile isSpace)
            rw [hbr] at this
            exact this
          cases rest with
          | nil =>
            have hnb2 : '\x7b' ∉ s.dropWhile isSpace := by
              apply breakAtChar_not_found
              rw [hbr]
            have hsegs : segs = [] := by
              by_cases h3 : (s.dropWhile isSpace).head? = some '@' <;>
                · rw [segmentsF] at heq
                  rw [if_neg h0, if_neg h1, if_neg h2] at heq
                  simp only [h3, ite_true, ite_false, hbr] at heq
                  simp_all
            subst hsegs
            refine ⟨s.dropWhile isSpace, ?_, hnb2⟩
            rw [List.map_nil]
            have key := Interleaves.last (s.takeWhile isSpace) (s.dropWhile isSpace) hws
            rw [hsplit] at key
            exact key
          | cons rc rrest =>
            have hlen3 : (rc :: rrest).length ≤ (s.dropWhile isSpace).length :=
              length_le_of_append hs1app
            have hlt : ((extractBlock (rc :: rrest)).2.getD []).length < (rc :: rrest).length :=
              extractBlock_rest_lt _ (by simp)
            have hblk : (extractBlock (rc :: rrest)).1 ++ ((extractBlock (rc :: rrest)).2.getD []) =
                rc :: rrest := extractBlock_append _
            have hraw : s.takeWhile isSpace ++
                ((pre ++ (extractBlock (rc :: rrest)).1) ++ ((extractBlock (rc :: rrest)).2.getD [])) = s := by
              conv_rhs => rw [← hsplit]
              rw [List.append_assoc, hblk, hs1app]
            by_cases h3 : (s.dropWhile isSpace).head? = some '@'
            · rw [segmentsF] at heq
              rw [if_neg h0, if_neg h1, if_neg h2] at heq
              simp only [h3, ite_true, hbr] at heq
              obtain ⟨segs2, hseg2, hcons⟩ := Option.map_eq_some'.mp heq
              obtain ⟨tail, hil, hnb⟩ := ih ((extractBlock (rc :: rrest)).2.getD []) segs2
                (by omega) hseg2
              refine ⟨tail, ?_, hnb⟩
              rw [← hcons]
              simp only [List.map_cons]
              have key := Interleaves.seg (s.takeWhile isSpace)
                (pre ++ (extractBlock (rc :: rrest)).1) ((extractBlock (rc :: rrest)).2.getD [])
                (segs2.map Segment.raw) tail hws hil
              rw [← List.append_assoc] at hraw
              rw [List.append_assoc (s.takeWhile isSpace)] at hraw
              rw [hraw] at key
              exact key
            · rw [segmentsF] at heq
              rw [if_neg h0, if_neg h1, if_neg h2] at heq
              simp only [h3, ite_false, hbr] at heq
              obtain ⟨segs2, hseg2, hcons⟩ := Option.map_eq_some'.mp heq
              obtain ⟨tail, hil, hnb⟩ := ih ((extractBlock (rc :: rrest)).2.getD []) segs2
                (by omega) hseg2
              refine ⟨tail, ?_, hnb⟩
              rw [← hcons]
              simp only [List.map_cons]
              have key := Interleaves.seg (s.takeWhile isSpace)
                (pre ++ (extractBlock (rc :: rrest)).1) ((extractBlock (rc :: rrest)).2.getD [])
                (segs2.map Segment.raw) tail hws hil
              rw [hraw] at key
              exact key

/-! ### Claim C1 -/

/-- C1 (counterexample): on the input `div` — trailing text with no opening
brace — the segmenter emits no segment at all, so the non-whitespace
characters `d`, `i`, `v` appear in no segment's raw span and the raw spans do
not reconstruct the input: the claim's full-coverage property (an
interleaving with empty remainder) fails. -/
theorem claim_C1_counterexample :
    (segments ('d' :: 'i' :: 'v' :: [])).map Segment.raw = [] ∧
    'd' ∈ ('d' :: 'i' :: 'v' :: []) ∧ isSpace 'd' = false ∧
    ¬ Interleaves ('d' :: 'i' :: 'v' :: [])
      ((segments ('d' :: 'i' :: 'v' :: [])).map Segment.raw) [] := by
  refine ⟨by decide, by decide, by decide, ?_⟩
  intro h
  rw [show (segments ('d' :: 'i' :: 'v' :: [])).map Segment.raw = [] from by decide] at h
  obtain ⟨ws, hs, hws⟩ := interleaves_nil h
  rw [List.append_nil] at hs
  have hd := hws 'd' (by rw [← hs]; simp)
  exact absurd hd (by decide)

/-- C1 (amended): for every input stylesheet, the CLI segments' raw texts,
interleaved in order with whitespace-only gaps, reconstruct the input up to a
final remainder that contains no opening brace; every character outside the
whitespace gaps and that remainder appears in exactly one segment's raw span,
in original order.  (The remainder is non-empty exactly when the input ends in
a truncated selector or at-rule with no block opener, which the segmenter
consumes without emitting — the claim's full-coverage statement fails there.) -/
theorem claim_C1_amended (s : List Char) :
    ∃ tail, Interleaves s ((segments s).map Segment.raw) tail ∧ '\x7b' ∉ tail := by
  have hsome := segmentsF_isSome (s.length + 1) s (Nat.lt_succ_self _)
  obtain ⟨segs, hsegs⟩ := Option.isSome_iff_exists.mp hsome
  have hseg : segments s = segs := by rw [segments, hsegs]; rfl
  rw [hseg]
  exact segmentsF_covers (s.length + 1) s segs (Nat.lt_succ_self _) hsegs

/-! ### Claim C5 -/

/-- C5 (confirmed): both parsers terminate on every input string, malformed
input included: one unit of fuel per loop iteration, and a fuel of
`length + 1` always returns a result (`isSome`) for the CLI segmentation loop
and for the runtime `parseCSS` loop — the loops never exceed `length + 1`
iterations, never loop forever, and the model never raises. -/
theorem claim_C5_theorem (s : List Char) (kb : Bool) (acc : ParseAcc) :
    (segmentsF (s.length + 1) s).isSome = true ∧
    (parseCSSF kb (s.length + 1) s acc).isSome = true :=
  ⟨segmentsF_isSome _ s (Nat.lt_succ_self _),
   parseCSSF_isSome kb _ s acc (Nat.lt_succ_self _)⟩

/-! ### Claim C3 -/

/-- C3 (confirmed): the CLI retention policy for top-level rule segments,
reading the three clauses as the source's cascade (base checked first): a rule
whose selector matches a base pattern is always kept; for a non-base selector
containing at least one class token, the rule is kept iff at least one of its
class names is in the Usage Index; a rule with zero class tokens and no base
match is dropped.  On the stylesheet
`:root{--x:1} .a{color:red} .b{color:blue} div{margin:0}` (braces escaped in
the Lean literal) with used classes `{a}`, the kept output is exactly the
`:root` block, the `.a` rule and the `div` rule, and the output text contains
the `:root`, `div` and `.a` rules but not the `.b` rule. -/
theorem claim_C3_theorem :
    (∀ (used : List (List Char)) (sel raw : List Char),
      isBaseElement sel = true →
      shouldKeepSegment used ⟨SegType.rule, sel, raw⟩ = true) ∧
    (∀ (used : List (List Char)) (sel raw : List Char),
      isBaseElement sel = false → classTokens sel ≠ [] →
      (shouldKeepSegment used ⟨SegType.rule, sel, raw⟩ = true ↔
        ∃ cn ∈ classNames sel, cn ∈ used)) ∧
    (∀ (used : List (List Char)) (sel raw : List Char),
      isBaseElement sel = false → classTokens sel = [] →
      shouldKeepSegment used ⟨SegType.rule, sel, raw⟩ = false) ∧
    (buildFilter [['a']] (segments
        ":root\x7b--x:1\x7d .a\x7bcolor:red\x7d .b\x7bcolor:blue\x7d div\x7bmargin:0\x7d".data)).kept =
      [":root\x7b--x:1\x7d".data, ".a\x7bcolor:red\x7d".data, "div\x7bmargin:0\x7d".data] ∧
    (":root\x7b--x:1\x7d".data <:+: buildOutput [['a']] (segments
        ":root\x7b--x:1\x7d .a\x7bcolor:red\x7d .b\x7bcolor:blue\x7d div\x7bmargin:0\x7d".data)) ∧
    ("div\x7bmargin:0\x7d".data <:+: buildOutput [['a']] (segments
        ":root\x7b--x:1\x7d .a\x7bcolor:red\x7d .b\x7bcolor:blue\x7d div\x7bmargin:0\x7d".data)) ∧
    (".a\x7bcolor:red\x7d".data <:+: buildOutput [['a']] (segments
        ":root\x7b--x:1\x7d .a\x7bcolor:red\x7d .b\x7bcolor:blue\x7d div\x7bmargin:0\x7d".data)) ∧
    ¬ (".b\x7bcolor:blue\x7d".data <:+: buildOutput [['a']] (segments
        ":root\x7b--x:1\x7d .a\x7bcolor:red\x7d .b\x7bcolor:blue\x7d div\x7bmargin:0\x7d".data)) := by
  refine ⟨?_, ?_, ?_, by decide, by decide, by decide, by decide, by decide⟩
  · intro used sel raw hbase
    simp [shouldKeepSegment, hbase]
  · intro used sel raw hbase hcls
    simp only [shouldKeepSegment, hbase, Bool.false_or]
    rw [selectorUsesClass]
    simp only [hcls, if_neg, ite_false]
    rw [List.any_eq_true]
    constructor
    · rintro ⟨cn, hmem, hdec⟩
      exact ⟨cn.tail, List.mem_map_of_mem List.tail hmem, of_decide_eq_true hdec⟩
    · rintro ⟨cn, hmem, hused⟩
      obtain ⟨tok, htok, rfl⟩ := List.mem_map.mp hmem
      exact ⟨tok, htok, decide_eq_true hused⟩
  · intro used sel raw hbase hcls
    simp [shouldKeepSegment, hbase, selectorUsesClass, hcls]

/-- C3 (witness): the three policy clauses instantiated at the selectors of
the claim's own example — `div` (base, kept), `.a` (class rule, kept iff `a`
is used), `.b` with empty usage (dropped). -/
theorem claim_C3_witness :
    shouldKeepSegment [] ⟨SegType.rule, "div".data, "div\x7bmargin:0\x7d".data⟩ = true ∧
    (shouldKeepSegment [['a']] ⟨SegType.rule, ".a".data, ".a\x7bcolor:red\x7d".data⟩ = true ↔
      ∃ cn ∈ classNames ".a".data, cn ∈ [['a']]) ∧
    shouldKeepSegment [] ⟨SegType.rule, "q q".data, "q q\x7bz:1\x7d".data⟩ = false := by
  refine ⟨?_, ?_, ?_⟩
  · exact claim_C3_theorem.1 [] "div".data "div\x7bmargin:0\x7d".data (by decide)
  · exact claim_C3_theorem.2.1 [['a']] ".a".data ".a\x7bcolor:red\x7d".data (by decide) (by decide)
  · exact claim_C3_theorem.2.2.1 [] "q q".data "q q\x7bz:1\x7d".data (by decide) (by decide)

/-! ### Additivity of the CLI filter fold -/

theorem buildStep_add (used : List (List Char)) (acc : BuildAcc) (seg : Segment) :
    buildStep used acc seg =
      ⟨acc.kept ++ (buildStep used ⟨[], 0, 0⟩ seg).kept,
       acc.keptCount + (buildStep used ⟨[], 0, 0⟩ seg).keptCount,
       acc.skippedCount + (buildStep used ⟨[], 0, 0⟩ seg).skippedCount⟩ := by
  unfold buildStep
  by_cases h : seg.kind = SegType.atRule ∧ ['@', 'm', 'e', 'd', 'i', 'a'] <+: seg.raw
  · simp only [if_pos h]
    cases hf : filterMediaBlock used seg.raw <;> simp
  · simp only [if_neg h]
    by_cases hk : shouldKeepSegment used seg = true
    · simp [hk]
    · simp only [Bool.not_eq_true] at hk
      simp [hk]

theorem buildFoldAdd (used : List (List Char)) (segs : List Segment) :
    ∀ acc : BuildAcc,
      segs.foldl (buildStep used) acc =
        ⟨acc.kept ++ (buildFilter used segs).kept,
         acc.keptCount + (buildFilter used segs).keptCount,
         acc.skippedCount + (buildFilter used segs).skippedCount⟩ := by
  induction segs with
  | nil => intro acc; simp [buildFilter]
  | cons seg rest ih =>
    intro acc
    rw [List.foldl_cons, ih (buildStep used acc seg)]
    have h2 : buildFilter used (seg :: rest) =
        ⟨(buildStep used ⟨[], 0, 0⟩ seg).kept ++ (buildFilter used rest).kept,
         (buildStep used ⟨[], 0, 0⟩ seg).keptCount + (buildFilter used rest).keptCount,
         (buildStep used ⟨[], 0, 0⟩ seg).skippedCount + (buildFilter used rest).skippedCount⟩ := by
      rw [buildFilter, List.foldl_cons, ih (buildStep used ⟨[], 0, 0⟩ seg)]
    rw [h2, buildStep_add used acc seg]
    simp [List.append_assoc, Nat.add_assoc]

/-! ### Claim C4 -/

/-- C4 (confirmed): the CLI media-block sub-filter.  On
`@media (min-width:600px){.x{color:red} span{color:blue}}` (braces escaped in
the Lean literal) with an empty used-classes set, the `.x` inner rule is
dropped and the `span` inner rule is kept, reassembled under the original
header.  When no inner rule survives the re-filter, `filterMediaBlock`
returns `none`; and in the build loop, a `@media` at-rule segment on which
`filterMediaBlock` returns `none` contributes nothing to the kept output and
increments the skipped counter by exactly one. -/
theorem claim_C4_theorem :
    (filterMediaBlock []
        "@media (min-width:600px)\x7b.x\x7bcolor:red\x7d span\x7bcolor:blue\x7d\x7d".data =
      some "@media (min-width:600px)\x7b\nspan\x7bcolor:blue\x7d\n\x7d".data) ∧
    ("span\x7bcolor:blue\x7d".data <:+:
      (filterMediaBlock []
        "@media (min-width:600px)\x7b.x\x7bcolor:red\x7d span\x7bcolor:blue\x7d\x7d".data).getD []) ∧
    (¬ (".x\x7bcolor:red\x7d".data <:+:
      (filterMediaBlock []
        "@media (min-width:600px)\x7b.x\x7bcolor:red\x7d span\x7bcolor:blue\x7d\x7d".data).getD [])) ∧
    (∀ (used : List (List Char)) (raw hd : List Char) (rc : Char) (rrest : List Char),
      breakAtChar '\x7b' raw = (hd, rc :: rrest) →
      cliMediaInner used ((rc :: rrest).tail.dropLast) = [] →
      filterMediaBlock used raw = none) ∧
    (∀ (used : List (List Char)) (pre post : List Segment) (seg : Segment) (r : List Char),
      seg.kind = SegType.atRule →
      seg.raw = '@' :: 'm' :: 'e' :: 'd' :: 'i' :: 'a' :: r →
      filterMediaBlock used seg.raw = none →
      buildFilter used (pre ++ seg :: post) =
        ⟨(buildFilter used (pre ++ post)).kept,
         (buildFilter used (pre ++ post)).keptCount,
         (buildFilter used (pre ++ post)).skippedCount + 1⟩) := by
  refine ⟨by decide, by decide, by decide, ?_, ?_⟩
  · intro used raw hd rc rrest hbr hinner
    rw [filterMediaBlock, hbr]
    simp only [hinner, ite_true]
  · intro used pre post seg r hk hr hf
    have hpre : ['@', 'm', 'e', 'd', 'i', 'a'] <+: seg.raw := ⟨r, hr.symm⟩
    have hstep : ∀ acc : BuildAcc, buildStep used acc seg =
        ⟨acc.kept, acc.keptCount, acc.skippedCount + 1⟩ := by
      intro acc
      rw [buildStep, if_pos ⟨hk, hpre⟩, hf]
    rw [buildFilter, buildFilter, List.foldl_append, List.foldl_append,
      List.foldl_cons, hstep, buildFoldAdd used post, buildFoldAdd used post]
    simp only [BuildAcc.mk.injEq]
    exact ⟨trivial, trivial, by omega⟩

/-- C4 (witness): a `@media` block whose single inner rule uses an unused
class survives nowhere: the inner filter is empty, `filterMediaBlock` returns
`none`, and the build loop skips the block. -/
theorem claim_C4_witness :
    buildFilter [] ([] ++ ⟨SegType.atRule, [],
        "@media (x)\x7b.z\x7ba:1\x7d\x7d".data⟩ :: []) =
      ⟨(buildFilter [] ([] ++ [])).kept,
       (buildFilter [] ([] ++ [])).keptCount,
       (buildFilter [] ([] ++ [])).skippedCount + 1⟩ :=
  claim_C4_theorem.2.2.2.2 [] [] []
    ⟨SegType.atRule, [], "@media (x)\x7b.z\x7ba:1\x7d\x7d".data⟩
    " (x)\x7b.z\x7ba:1\x7d\x7d".data rfl (by decide) (by decide)

/-! ### Claim C7 -/

/-- C7 (confirmed): `@keyframes` handling.  CLI: every `@keyframes` at-rule
segment in any segment list is emitted verbatim into the kept output (its raw
text, interior unfiltered) for every used-classes set, because only segments
whose raw text starts with `@media` are routed through the sub-filter and
`shouldKeepSegment` keeps every at-rule.  Runtime: one `parseCSS` iteration on
input whose post-whitespace text starts a `@keyframe` block puts the whole
block (header through matching closing brace) into the base list and leaves
the class map untouched.  The concrete conjuncts run both components on a full
`@keyframes` block: the CLI keeps it whole and the runtime parse yields an
empty class map with the block as the only base chunk. -/
theorem claim_C7_theorem :
    (∀ (used : List (List Char)) (segs : List Segment) (seg : Segment) (r : List Char),
      seg ∈ segs → seg.kind = SegType.atRule →
      seg.raw = '@' :: 'k' :: 'e' :: 'y' :: 'f' :: 'r' :: 'a' :: 'm' :: 'e' :: 's' :: r →
      seg.raw ∈ (buildFilter used segs).kept) ∧
    (∀ (kb : Bool) (fuel : Nat) (s : List Char) (acc : ParseAcc) (t pre : List Char)
        (rc : Char) (rrest : List Char),
      s.dropWhile isSpace = '@' :: 'k' :: 'e' :: 'y' :: 'f' :: 'r' :: 'a' :: 'm' :: 'e' :: t →
      breakAtChar '\x7b' (s.dropWhile isSpace) = (pre, rc :: rrest) →
      parseCSSF kb (fuel + 1) s acc =
        parseCSSF kb fuel ((extractBlock (rc :: rrest)).2.getD [])
          ⟨acc.map, acc.base ++ [pre ++ (extractBlock (rc :: rrest)).1]⟩) ∧
    (buildFilter [] (segments
        "@keyframes spin\x7bfrom\x7bopacity:0\x7d to\x7bopacity:1\x7d\x7d".data) =
      ⟨["@keyframes spin\x7bfrom\x7bopacity:0\x7d to\x7bopacity:1\x7d\x7d".data], 1, 0⟩) ∧
    (parseCSSrt true "@keyframes spin\x7bfrom\x7bopacity:0\x7d to\x7bopacity:1\x7d\x7d".data =
      ⟨[], ["@keyframes spin\x7bfrom\x7bopacity:0\x7d to\x7bopacity:1\x7d\x7d".data]⟩) := by
  refine ⟨?_, ?_, by decide, by decide⟩
  · intro used segs seg r hm hk hr
    obtain ⟨pre2, post, rfl⟩ := List.append_of_mem hm
    have hnm : ¬(seg.kind = SegType.atRule ∧ ['@', 'm', 'e', 'd', 'i', 'a'] <+: seg.raw) := by
      rintro ⟨-, t2, ht2⟩
      rw [hr] at ht2
      simp only [List.cons_append, List.cons.injEq] at ht2
      exact absurd ht2.2.1 (by decide)
    have hkeep : shouldKeepSegment used seg = true := by
      rw [shouldKeepSegment, hk]
    have hstep : ∀ acc : BuildAcc, buildStep used acc seg =
        ⟨acc.kept ++ [seg.raw], acc.keptCount + 1, acc.skippedCount⟩ := by
      intro acc
      rw [buildStep, if_neg hnm, if_pos hkeep]
    rw [buildFilter, List.foldl_append, List.foldl_cons, hstep, buildFoldAdd used post]
    simp
  · intro kb fuel s acc t pre rc rrest hkf hbr
    have h0 : ¬(s.dropWhile isSpace = []) := by rw [hkf]; simp
    have h1 : ¬(['/', '*'] <+: s.dropWhile isSpace) := by
      rw [hkf]
      rintro ⟨t2, ht2⟩
      simp only [List.cons_append, List.cons.injEq] at ht2
      exact absurd ht2.1 (by decide)
    have h2 : ¬(['@', 'i', 'm', 'p', 'o', 'r', 't'] <+: s.dropWhile isSpace ∨
        ['@', 'c', 'h', 'a', 'r', 's', 'e', 't'] <+: s.dropWhile isSpace) := by
      rw [hkf]
      rintro (⟨t2, ht2⟩ | ⟨t2, ht2⟩) <;>
        (simp only [List.cons_append, List.cons.injEq] at ht2;
         exact absurd ht2.2.1 (by decide))
    have h3 : ['@', 'k', 'e', 'y', 'f', 'r', 'a', 'm', 'e'] <+: s.dropWhile isSpace :=
      ⟨t, by rw [hkf]; simp⟩
    simp only [parseCSSF, h0, h1, h2, h3, hbr, ite_true, ite_false, not_false_iff,
      or_self, if_true, if_false]

/-- C7 (witness): the CLI part at a one-segment list holding a `@keyframes`
block, and one runtime parse step on the same kind of block. -/
theorem claim_C7_witness :
    ("@keyframes s\x7ba\x7d".data ∈
      (buildFilter [] [⟨SegType.atRule, [], "@keyframes s\x7ba\x7d".data⟩]).kept) ∧
    (parseCSSF true (0 + 1) "@keyframes s\x7ba\x7d".data ⟨[], []⟩ =
      parseCSSF true 0 ((extractBlock ('\x7b' :: 'a' :: '\x7d' :: [])).2.getD [])
        ⟨[], [] ++ ["@keyframes s".data ++ (extractBlock ('\x7b' :: 'a' :: '\x7d' :: [])).1]⟩) := by
  constructor
  · exact claim_C7_theorem.1 [] [⟨SegType.atRule, [], "@keyframes s\x7ba\x7d".data⟩]
      ⟨SegType.atRule, [], "@keyframes s\x7ba\x7d".data⟩ (' ' :: 's' :: '\x7b' :: 'a' :: '\x7d' :: [])
      (by decide) rfl (by decide)
  · exact claim_C7_theorem.2.1 true 0 "@keyframes s\x7ba\x7d".data ⟨[], []⟩
      ('s' :: ' ' :: 's' :: '\x7b' :: 'a' :: '\x7d' :: []) "@keyframes s".data
      '\x7b' ('a' :: '\x7d' :: []) (by decide) (by decide)

/-! ### Facts about the runtime injection pipeline -/

theorem injectFold_mem (m : List (List Char × List (List Char)))
    (cs : List (List Char)) :
    ∀ (acc : List (List Char) × List (List Char)) (cls : List Char),
      cls ∈ acc.1 → cls ∈ (cs.foldl (injectStep m) acc).1 := by
  induction cs with
  | nil => intro acc cls h; exact h
  | cons c cs ih =>
    intro acc cls h
    rw [List.foldl_cons]
    apply ih
    unfold injectStep
    by_cases hc : c ∈ acc.1
    · simp [hc, h]
    · simp only [hc, ite_false, if_neg]
      exact List.mem_append_left _ h

theorem injectFold_adds (m : List (List Char × List (List Char)))
    (cs : List (List Char)) :
    ∀ (acc : List (List Char) × List (List Char)) (cls : List Char),
      cls ∈ cs → cls ∈ (cs.foldl (injectStep m) acc).1 := by
  induction cs with
  | nil => intro acc cls h; simp at h
  | cons c cs ih =>
    intro acc cls h
    rw [List.foldl_cons]
    rcases List.mem_cons.mp h with rfl | h2
    · apply injectFold_mem
      unfold injectStep
      by_cases hc : cls ∈ acc.1
      · simp [hc]
      · simp [hc]
    · exact ih _ cls h2

theorem injectClasses_untouched (cs : List (List Char)) (s : RState) :
    (injectClasses cs s).flushTimer = s.flushTimer ∧
    (injectClasses cs s).outstanding = s.outstanding ∧
    (injectClasses cs s).pending = s.pending ∧
    (injectClasses cs s).cssRules = s.cssRules ∧
    (injectClasses cs s).watching = s.watching ∧
    (injectClasses cs s).baseRules = s.baseRules := by
  cases hm : s.cssRules with
  | none => simp [injectClasses, hm]
  | some m => simp [injectClasses, hm]

theorem injectClasses_mono (cs : List (List Char)) (s : RState) (cls : List Char)
    (h : cls ∈ s.injected) : cls ∈ (injectClasses cs s).injected := by
  rw [injectClasses]
  cases hm : s.cssRules with
  | none => exact h
  | some m => exact injectFold_mem m cs (s.injected, []) cls h

theorem scheduleInject_injected (cs : List (List Char)) (s : RState) :
    (scheduleInject cs s).injected = s.injected := by
  rw [scheduleInject]
  by_cases ht : s.flushTimer <;> simp [ht]

theorem flushPending_injected_mono (s : RState) (cls : List Char)
    (h : cls ∈ s.injected) : cls ∈ (flushPending s).injected := by
  rw [flushPending]
  by_cases hp : s.pending = []
  · simpa [hp] using h
  · simp only [hp, ite_false, if_neg, not_false_iff]
    exact injectClasses_mono _ _ _ h

theorem step_injected_mono {s t : RState} (h : Step s t) (cls : List Char)
    (hc : cls ∈ s.injected) : cls ∈ t.injected := by
  cases h with
  | inject cs s => exact injectClasses_mono cs s cls hc
  | rescan cs s => exact injectClasses_mono cs s cls hc
  | schedule cs s => rw [scheduleInject_injected]; exact hc
  | flush s hout => exact flushPending_injected_mono _ cls hc

theorem injectFold_skip (m : List (List Char × List (List Char))) (cls : List Char) :
    ∀ (cs : List (List Char)) (acc : List (List Char) × List (List Char)),
      cls ∈ acc.1 →
      cs.foldl (injectStep m) acc =
        (cs.filter (fun c => decide (c ≠ cls))).foldl (injectStep m) acc := by
  intro cs
  induction cs with
  | nil => intro acc _; rfl
  | cons c cs ih =>
    intro acc hmem
    by_cases hc : c = cls
    · subst hc
      have hdrop : (c :: cs).filter (fun x => decide (x ≠ c)) =
          cs.filter (fun x => decide (x ≠ c)) := by
        simp [List.filter_cons]
      rw [hdrop, List.foldl_cons]
      have hstep : injectStep m acc c = acc := by
        unfold injectStep
        simp [hmem]
      rw [hstep]
      exact ih acc hmem
    · have hkeep : (c :: cs).filter (fun x => decide (x ≠ cls)) =
          c :: cs.filter (fun x => decide (x ≠ cls)) := by
        simp [List.filter_cons, hc]
      rw [hkeep, List.foldl_cons, List.foldl_cons]
      apply ih
      unfold injectStep
      by_cases h2 : c ∈ acc.1
      · simp [h2, hmem]
      · simp only [h2, ite_false, if_neg, not_false_iff]
        exact List.mem_append_left _ hmem

/-! ### Claim C2 -/

/-- C2 (confirmed): across any sequence of runtime events (manual injection,
rescans, scheduler batches, flushes) the injected-classes set only grows — a
class present before any reachable sequence of steps is present after it —
and injection is idempotent per class: once a class is in the injected set,
any later `injectClasses` call behaves exactly as the same call with every
occurrence of that class removed, so no rule text is appended for it a second
time (a fortiori for flushes, which drain the pending set through
`injectClasses`). -/
theorem claim_C2_theorem :
    (∀ s t : RState, Relation.ReflTransGen Step s t →
      ∀ cls : List Char, cls ∈ s.injected → cls ∈ t.injected) ∧
    (∀ (cs : List (List Char)) (s : RState) (cls : List Char),
      cls ∈ s.injected →
      injectClasses cs s = injectClasses (cs.filter (fun c => decide (c ≠ cls))) s) := by
  constructor
  · intro s t h cls hc
    induction h with
    | refl => exact hc
    | tail _ hstep ih => exact step_injected_mono hstep cls ih
  · intro cs s cls hmem
    cases hm : s.cssRules with
    | none => simp [injectClasses, hm]
    | some m =>
      simp only [injectClasses, hm]
      rw [injectFold_skip m cls cs (s.injected, []) hmem]

/-- C2 (witness): from a state with class `a` injected, one inject step keeps
`a` injected, and injecting `a` again equals injecting the filtered (empty)
class list. -/
theorem claim_C2_witness :
    (['a'] ∈ (injectClasses [['b']]
      ⟨some [], [], [['a']], some [], [], false, 0, false⟩).injected) ∧
    (injectClasses [['a']] ⟨some [], [], [['a']], some [], [], false, 0, false⟩ =
      injectClasses ([['a']].filter (fun c => decide (c ≠ ['a'])))
        ⟨some [], [], [['a']], some [], [], false, 0, false⟩) := by
  constructor
  · exact claim_C2_theorem.1 ⟨some [], [], [['a']], some [], [], false, 0, false⟩ _
      (Relation.ReflTransGen.single
        (Step.inject [['b']] ⟨some [], [], [['a']], some [], [], false, 0, false⟩))
      ['a'] (by decide)
  · exact claim_C2_theorem.2 [['a']] ⟨some [], [], [['a']], some [], [], false, 0, false⟩
      ['a'] (by decide)

/-! ### Scheduler invariant and claim C9 -/

theorem flushPending_eq (x : RState) :
    flushPending x =
      if x.pending = [] then { x with flushTimer := false }
      else { injectClasses x.pending { x with flushTimer := false } with pending := [] } := rfl

theorem scheduleInject_eq (cs : List (List Char)) (s : RState) :
    scheduleInject cs s =
      if s.flushTimer then { s with pending := cs.foldl insertSet s.pending }
      else { s with pending := cs.foldl insertSet s.pending,
                    flushTimer := true, outstanding := s.outstanding + 1 } := rfl

theorem flushPending_fields (x : RState) :
    (flushPending x).flushTimer = false ∧
    (flushPending x).outstanding = x.outstanding ∧
    (flushPending x).pending = [] := by
  rw [flushPending_eq]
  by_cases hp : x.pending = []
  · rw [if_pos hp]
    exact ⟨rfl, rfl, hp⟩
  · rw [if_neg hp]
    exact ⟨(injectClasses_untouched _ _).1, (injectClasses_untouched _ _).2.1, rfl⟩

theorem scheduleInject_timer (cs : List (List Char)) (s : RState) :
    (scheduleInject cs s).flushTimer = true ∧
    (scheduleInject cs s).outstanding =
      (if s.flushTimer then s.outstanding else s.outstanding + 1) ∧
    (scheduleInject cs s).pending = cs.foldl insertSet s.pending := by
  rw [scheduleInject_eq]
  by_cases ht : s.flushTimer
  · rw [if_pos ht, if_pos ht]
    exact ⟨ht, rfl, rfl⟩
  · rw [if_neg ht, if_neg ht]
    exact ⟨rfl, rfl, rfl⟩

theorem insertFold_mem (cs : List (List Char)) :
    ∀ (l : List (List Char)) (c : List Char), c ∈ l → c ∈ cs.foldl insertSet l := by
  induction cs with
  | nil => intro l c h; exact h
  | cons x cs ih =>
    intro l c h
    rw [List.foldl_cons]
    apply ih
    unfold insertSet
    by_cases hx : x ∈ l
    · simp [hx, h]
    · simp only [hx, ite_false, if_neg, not_false_iff]
      exact List.mem_append_left _ h

theorem insertFold_adds (cs : List (List Char)) :
    ∀ (l : List (List Char)) (c : List Char), c ∈ cs → c ∈ cs.foldl insertSet l := by
  induction cs with
  | nil => intro l c h; simp at h
  | cons x cs ih =>
    intro l c h
    rw [List.foldl_cons]
    rcases List.mem_cons.mp h with rfl | h2
    · apply insertFold_mem
      unfold insertSet
      by_cases hx : c ∈ l
      · simp [hx]
      · simp [hx]
    · exact ih _ c h2

theorem reachable_inv (s : RState) (h : Reachable s) :
    s.outstanding ≤ 1 ∧ (s.flushTimer = true ↔ s.outstanding = 1) := by
  induction h with
  | base s h1 h2 => simp [h1, h2]
  | @step s2 t2 _ hstep ih =>
    cases hstep with
    | inject cs =>
      rw [(injectClasses_untouched cs s2).1, (injectClasses_untouched cs s2).2.1]
      exact ih
    | rescan cs =>
      rw [(injectClasses_untouched cs s2).1, (injectClasses_untouched cs s2).2.1]
      exact ih
    | schedule cs =>
      rw [(scheduleInject_timer cs s2).1, (scheduleInject_timer cs s2).2.1]
      by_cases ht : s2.flushTimer
      · have h1 := ih.2.mp ht
        simp [ht, h1]
      · have hne : ¬ s2.outstanding = 1 := fun he => ht (ih.2.mpr he)
        have h0 : s2.outstanding = 0 := by omega
        simp [ht, h0]
    | flush hout =>
      rw [(flushPending_fields _).1, (flushPending_fields _).2.1]
      have h1 : s2.outstanding = 1 := by
        have := ih.1
        omega
      simp [h1]

/-! ### Claim C9 -/

/-- C9 (confirmed): in the runtime scheduler, at most one flush callback is
ever registered at a time (every reachable state has at most one outstanding
rendering-frame registration); scheduling classes while a flush is already
pending (`flushTimer` set) adds them to the pending set without registering a
second callback (the registration count is unchanged); and a flush empties
the pending set, clears the registered-callback state and consumes the one
outstanding registration, returning the scheduler to idle. -/
theorem claim_C9_theorem (s : RState) (hr : Reachable s) :
    s.outstanding ≤ 1 ∧
    (∀ cs : List (List Char), s.flushTimer = true →
      (scheduleInject cs s).flushTimer = true ∧
      (scheduleInject cs s).outstanding = s.outstanding ∧
      (∀ c, c ∈ cs → c ∈ (scheduleInject cs s).pending) ∧
      (∀ c, c ∈ s.pending → c ∈ (scheduleInject cs s).pending)) ∧
    (s.outstanding = 1 →
      (flushPending { s with outstanding := s.outstanding - 1 }).pending = [] ∧
      (flushPending { s with outstanding := s.outstanding - 1 }).flushTimer = false ∧
      (flushPending { s with outstanding := s.outstanding - 1 }).outstanding = 0) := by
  refine ⟨(reachable_inv s hr).1, ?_, ?_⟩
  · intro cs ht
    refine ⟨(scheduleInject_timer cs s).1, ?_, ?_, ?_⟩
    · rw [(scheduleInject_timer cs s).2.1, if_pos ht]
    · intro c hc
      rw [(scheduleInject_timer cs s).2.2]
      exact insertFold_adds cs s.pending c hc
    · intro c hc
      rw [(scheduleInject_timer cs s).2.2]
      exact insertFold_mem cs s.pending c hc
  · intro h1
    refine ⟨(flushPending_fields _).2.2, (flushPending_fields _).1, ?_⟩
    rw [(flushPending_fields _).2.1]
    simp [h1]

/-- C9 (witness): the state reached from the quiescent initial state by one
scheduler batch satisfies the invariant, and a flush of it returns to idle. -/
theorem claim_C9_witness :
    (scheduleInject [['x']] initialState).outstanding ≤ 1 ∧
    (flushPending { scheduleInject [['x']] initialState with
        outstanding := (scheduleInject [['x']] initialState).outstanding - 1 }).pending = [] := by
  have hr : Reachable (scheduleInject [['x']] initialState) :=
    Reachable.step (Reachable.base initialState rfl rfl)
      (Step.schedule [['x']] initialState)
  refine ⟨(claim_C9_theorem _ hr).1, ?_⟩
  exact ((claim_C9_theorem _ hr).2.2 (by decide)).1

/-! ### Claim C10 -/

theorem injectClasses_eq (cs : List (List Char)) (s : RState)
    (m : List (List Char × List (List Char))) (hm : s.cssRules = some m) :
    injectClasses cs s =
      { s with injected := (cs.foldl (injectStep m) (s.injected, [])).1,
               styleTag := some (if (cs.foldl (injectStep m) (s.injected, [])).2 = []
                 then s.styleTag.getD []
                 else s.styleTag.getD [] ++ '\n' ::
                   List.intercalate ['\n'] (cs.foldl (injectStep m) (s.injected, [])).2) } := by
  rw [injectClasses, hm]

/-- C10 (confirmed): a class passed to `injectClasses` (the common path of
`inject`, `rescan` and a flush) is added to the injected set — and hence
listed by `getInjected` — even when the parsed class-to-rule map has no entry
for it: injecting such a class appends no text to the style element (only
materializes the element), and a later injection request for it is a complete
no-op on the state. -/
theorem claim_C10_theorem (s : RState) (m : List (List Char × List (List Char)))
    (cls : List Char) (cs : List (List Char))
    (hm : s.cssRules = some m) (hlk : mapLookup m cls = none) (hin : cls ∈ cs) :
    cls ∈ (injectClasses cs s).injected ∧
    cls ∈ getInjected (injectClasses cs s) ∧
    (injectClasses [cls] s).styleTag = some (s.styleTag.getD []) ∧
    injectClasses [cls] (injectClasses [cls] s) = injectClasses [cls] s := by
  have hmem : cls ∈ (injectClasses cs s).injected := by
    rw [injectClasses_eq cs s m hm]
    exact injectFold_adds m cs (s.injected, []) cls hin
  have hfold1 : (injectStep m (s.injected, []) cls).2 = [] := by
    unfold injectStep
    by_cases hc : cls ∈ s.injected
    · simp [hc]
    · simp [hc, hlk]
  have htag : (injectClasses [cls] s).styleTag = some (s.styleTag.getD []) := by
    rw [injectClasses_eq [cls] s m hm]
    simp [hfold1]
  refine ⟨hmem, hmem, htag, ?_⟩
  have hm2 : (injectClasses [cls] s).cssRules = some m := by
    rw [(injectClasses_untouched [cls] s).2.2.2.1, hm]
  have hmem2 : cls ∈ (injectClasses [cls] s).injected := by
    rw [injectClasses_eq [cls] s m hm]
    exact injectFold_adds m [cls] (s.injected, []) cls (by simp)
  have hfold2 : ([cls].foldl (injectStep m) ((injectClasses [cls] s).injected, [])) =
      ((injectClasses [cls] s).injected, []) := by
    rw [List.foldl_cons, List.foldl_nil]
    unfold injectStep
    simp [hmem2]
  rw [injectClasses_eq [cls] (injectClasses [cls] s) m hm2, hfold2]
  simp only [ite_true, if_pos rfl]
  rw [htag]
  cases hstate : injectClasses [cls] s with
  | mk a b c d e f g i =>
    rw [hstate] at htag
    simp only at htag
    simp [htag]

/-- C10 (witness): injecting the unmapped class `ghost` into an initialized
state records it in the injected set, appends nothing, and a repeat request
is a no-op. -/
theorem claim_C10_witness :
    (['g'] ∈ (injectClasses [['g']]
      ⟨some [(['a'], [['x']])], [], [], some [], [], false, 0, false⟩).injected) ∧
    ((injectClasses [['g']]
      ⟨some [(['a'], [['x']])], [], [], some [], [], false, 0, false⟩).styleTag = some []) ∧
    (injectClasses [['g']] (injectClasses [['g']]
        ⟨some [(['a'], [['x']])], [], [], some [], [], false, 0, false⟩) =
      injectClasses [['g']]
        ⟨some [(['a'], [['x']])], [], [], some [], [], false, 0, false⟩) := by
  have h := claim_C10_theorem
    ⟨some [(['a'], [['x']])], [], [], some [], [], false, 0, false⟩
    [(['a'], [['x']])] ['g'] [['g']] rfl (by decide) (by decide)
  exact ⟨h.1, h.2.2.1, h.2.2.2⟩

/-! ### Claim C8 -/

/-- C8 (confirmed): when the runtime's initial stylesheet fetch fails or
returns a non-success response (modelled as `fetched = none`, covering both a
rejected fetch and the `!res.ok` throw, which land in the same `catch`),
`init` aborts: the diagnostic is logged, the module state stays pristine — no
style element is created and no text is ever set on it, nothing is injected,
no DOM observation starts — exactly one fetch was issued (no retry), and the
model returns normally (the `catch` swallows the failure, so nothing
propagates to the host page). -/
theorem claim_C8_theorem (domClasses : List (List Char)) (cfg : Config) :
    init none domClasses cfg = ⟨initialState, true, 1⟩ ∧
    (init none domClasses cfg).state.styleTag = none ∧
    (init none domClasses cfg).state.injected = [] ∧
    (init none domClasses cfg).state.cssRules = none ∧
    (init none domClasses cfg).state.watching = false ∧
    (init none domClasses cfg).errorLogged = true ∧
    (init none domClasses cfg).fetchCalls = 1 :=
  ⟨rfl, rfl, rfl, rfl, rfl, rfl, rfl⟩

/-! ### Claim C6: spec-side characterization of class-token extraction -/

/-- Spec-side reading of "every substring matching a dot followed by a letter
then letters/digits/hyphen/underscore is a class token, with the leading dot
removed": `n` occurs somewhere in the selector right after a `.`, starts with
a letter, continues with class characters, and is maximal to the right (the
next character, if any, is not a class character — a shorter substring would
not be what the greedy `\x2a` quantifier matches). -/
def SpecClassName (sel n : List Char) : Prop :=
  ∃ (u v : List Char) (c : Char) (cs : List Char),
    n = c :: cs ∧
    sel = u ++ '.' :: c :: (cs ++ v) ∧
    isAlpha c = true ∧
    (∀ x ∈ cs, isClassChar x = true) ∧
    (v = [] ∨ ∃ d ds, v = d :: ds ∧ isClassChar d = false)

theorem mem_takeWhile_pred {p : Char → Bool} :
    ∀ {s : List Char} {x : Char}, x ∈ s.takeWhile p → p x = true := by
  intro s
  induction s with
  | nil => intro x h; simp at h
  | cons y ys ih =>
    intro x h
    by_cases hy : p y
    · rw [List.takeWhile_cons_of_pos hy] at h
      rcases List.mem_cons.mp h with rfl | h2
      · exact hy
      · exact ih h2
    · rw [List.takeWhile_cons_of_neg hy] at h
      simp at h

theorem takeWhile_dropWhile_of_split (p : Char → Bool) :
    ∀ (a b : List Char), (∀ x ∈ a, p x = true) →
      (b = [] ∨ ∃ d ds, b = d :: ds ∧ p d = false) →
      (a ++ b).takeWhile p = a ∧ (a ++ b).dropWhile p = b := by
  intro a
  induction a with
  | nil =>
    intro b _ hb
    rcases hb with rfl | ⟨d, ds, rfl, hd⟩
    · simp
    · simp only [List.nil_append]
      exact ⟨List.takeWhile_cons_of_neg (by simp [hd]), List.dropWhile_cons_of_neg (by simp [hd])⟩
  | cons x a2 ih =>
    intro b ha hb
    have hx : p x = true := ha x (by simp)
    have h2 := ih b (fun y hy => ha y (by simp [hy])) hb
    constructor
    · rw [List.cons_append, List.takeWhile_cons_of_pos hx, h2.1]
    · rw [List.cons_append, List.dropWhile_cons_of_pos hx, h2.2]

theorem dropWhile_append_marker (p : Char → Bool) (x : Char) (hx : p x = false) :
    ∀ (a b : List Char), ∃ a2, (a ++ x :: b).dropWhile p = a2 ++ x :: b := by
  intro a
  induction a with
  | nil =>
    refine fun b => ⟨[], ?_⟩
    simp only [List.nil_append]
    exact List.dropWhile_cons_of_neg (by simp [hx])
  | cons y a2 ih =>
    intro b
    by_cases hy : p y
    · obtain ⟨a3, ha3⟩ := ih b
      exact ⟨a3, by rw [List.cons_append, List.dropWhile_cons_of_pos hy, ha3]⟩
    · exact ⟨y :: a2, by rw [List.cons_append, List.dropWhile_cons_of_neg hy]⟩

theorem spec_nil (n : List Char) : ¬ SpecClassName [] n := by
  rintro ⟨u, v, c, cs, -, hsel, -⟩
  exact absurd hsel.symm (by simp)

theorem spec_of_tail {y : Char} {t n : List Char} (h : SpecClassName t n) :
    SpecClassName (y :: t) n := by
  obtain ⟨u, v, c, cs, hn, hsel, ha, hcs, hv⟩ := h
  exact ⟨y :: u, v, c, cs, hn, by rw [hsel]; rfl, ha, hcs, hv⟩

theorem spec_cons_elim {y : Char} {t n : List Char} (h : SpecClassName (y :: t) n) :
    (y = '.' ∧ ∃ (c : Char) (cs v : List Char),
      n = c :: cs ∧ t = c :: (cs ++ v) ∧ isAlpha c = true ∧
      (∀ x ∈ cs, isClassChar x = true) ∧
      (v = [] ∨ ∃ d ds, v = d :: ds ∧ isClassChar d = false)) ∨
    SpecClassName t n := by
  obtain ⟨u, v, c, cs, hn, hsel, ha, hcs, hv⟩ := h
  cases u with
  | nil =>
    left
    simp only [List.nil_append, List.cons.injEq] at hsel
    exact ⟨hsel.1, c, cs, v, hn, hsel.2, ha, hcs, hv⟩
  | cons u0 u2 =>
    right
    simp only [List.cons_append, List.cons.injEq] at hsel
    exact ⟨u2, v, c, cs, hn, hsel.2, ha, hcs, hv⟩

theorem spec_dropWhile {t n : List Char} (h : SpecClassName t n) :
    SpecClassName (t.dropWhile isClassChar) n := by
  obtain ⟨u, v, c, cs, hn, hsel, ha, hcs, hv⟩ := h
  obtain ⟨u2, hu2⟩ := dropWhile_append_marker isClassChar '.' (by decide) u (c :: (cs ++ v))
  rw [hsel]
  exact ⟨u2, v, c, cs, hn, hu2, ha, hcs, hv⟩

theorem classTokensF_spec (fuel : Nat) :
    ∀ (s : List Char), s.length < fuel → ∀ n : List Char,
      (n ∈ (classTokensF fuel s).map List.tail ↔ SpecClassName s n) := by
  induction fuel with
  | zero => intro s h; omega
  | succ fuel ih =>
    intro s hs n
    cases s with
    | nil =>
      simp only [classTokensF, List.map_nil, List.not_mem_nil, false_iff]
      exact spec_nil n
    | cons x rest =>
      by_cases hx : x = '.'
      · subst hx
        cases rest with
        | nil =>
          simp only [classTokensF, ite_true, List.map_nil, List.not_mem_nil, false_iff,
            if_pos]
          intro h
          rcases spec_cons_elim h with ⟨-, c, cs, v, -, ht, -⟩ | h2
          · exact absurd ht (by simp)
          · exact spec_nil n h2
        | cons cchar rest2 =>
          by_cases ha : isAlpha cchar = true
          · have heq : classTokensF (fuel + 1) ('.' :: cchar :: rest2) =
                ('.' :: cchar :: rest2.takeWhile isClassChar) ::
                  classTokensF fuel (rest2.dropWhile isClassChar) := by
              simp [classTokensF, ha]
            have hlen : (rest2.dropWhile isClassChar).length < fuel := by
              have := dropWhile_length_le isClassChar rest2
              simp only [List.length_cons] at hs
              omega
            rw [heq]
            simp only [List.map_cons, List.mem_cons, List.tail_cons]
            rw [ih (rest2.dropWhile isClassChar) hlen n]
            constructor
            · rintro (rfl | h2)
              · refine ⟨[], rest2.dropWhile isClassChar, cchar, rest2.takeWhile isClassChar,
                  rfl, ?_, ha, fun x hx => mem_takeWhile_pred hx, ?_⟩
                · rw [List.nil_append, List.takeWhile_append_dropWhile]
                · cases hd : rest2.dropWhile isClassChar with
                  | nil => exact Or.inl rfl
                  | cons d ds => exact Or.inr ⟨d, ds, rfl, dropWhile_head_false hd⟩
              · obtain ⟨u, v, c, cs, hn, hsel, ha2, hcs, hv⟩ := h2
                refine ⟨'.' :: cchar :: rest2.takeWhile isClassChar ++ u, v, c, cs,
                  hn, ?_, ha2, hcs, hv⟩
                conv_lhs => rw [show ('.' :: cchar :: rest2 : List Char) =
                  '.' :: cchar :: (rest2.takeWhile isClassChar ++ rest2.dropWhile isClassChar)
                  from by rw [List.takeWhile_append_dropWhile]]
                rw [hsel]
                simp
            · intro h
              rcases spec_cons_elim h with ⟨-, c, cs, v, hn, ht, ha2, hcs, hv⟩ | h2
              · left
                have hinj : c = cchar ∧ cs ++ v = rest2 := by
                  have h3 := ht.symm
                  simp only [List.cons.injEq] at h3
                  exact ⟨h3.1, h3.2⟩
                obtain ⟨rfl, hsplit⟩ := hinj
                have hmax := takeWhile_dropWhile_of_split isClassChar cs v hcs hv
                rw [hsplit] at hmax
                rw [hn, hmax.1]
              · right
                rcases spec_cons_elim h2 with ⟨hdot, -⟩ | h3
                · exact absurd (hdot ▸ ha) (by decide)
                · exact spec_dropWhile h3
          · have heq : classTokensF (fuel + 1) ('.' :: cchar :: rest2) =
                classTokensF fuel (cchar :: rest2) := by
              simp [classTokensF, ha]
            have hlen : (cchar :: rest2).length < fuel := by
              simp only [List.length_cons] at hs ⊢
              omega
            rw [heq, ih (cchar :: rest2) hlen n]
            constructor
            · exact spec_of_tail
            · intro h
              rcases spec_cons_elim h with ⟨-, c, cs, v, hn, ht, ha2, hcs, hv⟩ | h2
              · exfalso
                have hc : c = cchar := by
                  have h3 := ht.symm
                  simp only [List.cons.injEq] at h3
                  exact h3.1
                exact ha (hc ▸ ha2)
              · exact h2
      · have heq : classTokensF (fuel + 1) (x :: rest) = classTokensF fuel rest := by
          simp [classTokensF, hx]
        have hlen : rest.length < fuel := by
          simp only [List.length_cons] at hs
          omega
        rw [heq, ih rest hlen n]
        constructor
        · exact spec_of_tail
        · intro h
          rcases spec_cons_elim h with ⟨hdot, -⟩ | h2
          · exact absurd hdot hx
          · exact h2

/-- C6 (confirmed): for every trimmed selector string containing at least one
class token, the extracted class-name set (shared by the CLI
`selectorUsesClass` and the runtime `parseCSS` class mapping, which use the
identical regex) equals the set of substrings of the selector matching "dot
followed by a letter then letters/digits/hyphen/underscore" (greedy, so
maximal to the right), with the leading dot removed, compared
case-sensitively; duplicates contribute one element (membership is an iff, so
both sides are compared as sets). -/
theorem claim_C6_theorem (sel : List Char) (_h : ∃ n0, SpecClassName sel n0)
    (n : List Char) : n ∈ classNames sel ↔ SpecClassName sel n := by
  rw [classNames, classTokens]
  exact classTokensF_spec (sel.length + 1) sel (Nat.lt_succ_self _) n

/-- C6 (witness): on the selector `.ab .x`, membership of `ab` in the
extracted class-name set coincides with the spec-side characterization. -/
theorem claim_C6_witness :
    ['a', 'b'] ∈ classNames ".ab .x".data ↔ SpecClassName ".ab .x".data ['a', 'b'] :=
  claim_C6_theorem ".ab .x".data
    ⟨['a', 'b'], [], [' ', '.', 'x'], 'a', ['b'], rfl, by decide, by decide, by decide,
      Or.inr ⟨' ', ['.', 'x'], rfl, by decide⟩⟩
    ['a', 'b']

end StyleJit
